import Mathlib

/-!
Shallow embedding of `mongohook/hook.go` from `github.com/pm-esd/logger`:
a logrus hook that resolves the call site of a log entry, snapshots the
entry, enqueues it on a bounded worker queue, and on a worker merges extra
fields, applies an optional filter, and hands the entry to an execution
backend, reporting backend errors to a diagnostic sink.

Go `map[string]interface{}` values are modelled as association lists with
in-place update (`fset`); pointer aliasing of `logrus.Entry.Data` maps is
modelled with an explicit heap of field maps addressed by `Ref`.
-/

/-- Model of Go `interface{}` values stored in entry fields. -/
inductive GoValue where
  | str : String → GoValue
  | int : Int → GoValue
deriving DecidableEq, Repr

/-- A Go `map[string]interface{}` (logrus `Fields`), as an association list. -/
abbrev Fields := List (String × GoValue)

/-- Map read: `v, ok := m[k]` (first matching key). -/
def fget : Fields → String → Option GoValue
  | [], _ => none
  | (k', v) :: rest, k => if k' = k then some v else fget rest k

/-- Map write: `m[k] = v` — replace the binding in place, append if absent. -/
def fset : Fields → String → GoValue → Fields
  | [], k, v => [(k, v)]
  | (k', v') :: rest, k, v =>
    if k' = k then (k, v) :: rest else (k', v') :: fset rest k v

/-- `logrus.Level`, the severity enumeration of the host logging library. -/
inductive Level where
  | panicLevel
  | fatalLevel
  | errorLevel
  | warnLevel
  | infoLevel
  | debugLevel
  | traceLevel
deriving DecidableEq, Repr

/-- The numeric value of a `logrus.Level` constant; smaller is more severe. -/
def levelValue : Level → Nat
  | .panicLevel => 0
  | .fatalLevel => 1
  | .errorLevel => 2
  | .warnLevel => 3
  | .infoLevel => 4
  | .debugLevel => 5
  | .traceLevel => 6

/-- An `io.Writer` diagnostic sink; `stderr` is `os.Stderr`. -/
inductive Sink where
  | stderr
  | custom : Nat → Sink
deriving DecidableEq, Repr

/-- A worker-owned `logrus.Entry` value: once queued the copy's field map is
exclusively owned by one worker, so it is modelled as a plain value. -/
structure PEntry where
  time : Nat
  level : Level
  msg : String
  data : Fields
deriving DecidableEq, Repr

/-- Result of `ExecCloser.Exec(entry) error`. -/
inductive BackendRes where
  | ok
  | err : String → BackendRes
deriving DecidableEq, Repr

/-- The execution backend capability: `Exec(entry) -> error|nil`. -/
abbrev Backend := PEntry → BackendRes

/-- `FilterHandle func(*logrus.Entry) *logrus.Entry`. -/
abbrev FilterHandle := PEntry → PEntry

/-- The `options` struct of `hook.go`.  A nil Go map / nil interface /
nil function field is `none`. -/
structure Opts where
  maxQueues : Nat
  maxWorkers : Nat
  extra : Option Fields
  exec : Option Backend
  filter : Option FilterHandle
  levels : List Level
  out : Option Sink

/-- `Option func(*options)`. -/
abbrev OptFn := Opts → Opts

/-- `defaultOptions` of `hook.go`: queue 512, workers 2, five levels from
Fatal down to Debug, output `os.Stderr`, everything else nil. -/
def defaultOptions : Opts :=
  { maxQueues := 512
    maxWorkers := 2
    extra := none
    exec := none
    filter := none
    levels := [Level.fatalLevel, Level.errorLevel, Level.warnLevel,
               Level.infoLevel, Level.debugLevel]
    out := some Sink.stderr }

/-- `SetMaxQueues`. -/
def SetMaxQueues (n : Nat) : OptFn := fun o => { o with maxQueues := n }

/-- `SetMaxWorkers`. -/
def SetMaxWorkers (n : Nat) : OptFn := fun o => { o with maxWorkers := n }

/-- `SetExtra`. -/
def SetExtra (extra : Fields) : OptFn := fun o => { o with extra := some extra }

/-- `SetExec`. -/
def SetExec (e : Backend) : OptFn := fun o => { o with exec := some e }

/-- `SetFilter`. -/
def SetFilter (f : FilterHandle) : OptFn := fun o => { o with filter := some f }

/-- `SetLevels`: an empty argument list leaves the options unchanged. -/
def SetLevels (levels : List Level) : OptFn := fun o =>
  if levels.isEmpty then o else { o with levels := levels }

/-- `SetOut`. -/
def SetOut (s : Sink) : OptFn := fun o => { o with out := some s }

/-- The loop in `New` applying each option to a copy of `defaultOptions`. -/
def applyOpts (fs : List OptFn) : Opts :=
  fs.foldl (fun o f => f o) defaultOptions

/-- The `Hook` struct (the queue's state is threaded explicitly by the
session functions below). -/
structure Hook where
  opts : Opts

/-- Result of `New`: the constructed hook plus the `logrus.Info` line it
emits when no `ExecCloser` was supplied (construction is never fatal; the
original `panic` call at that spot is commented out in the source). -/
structure NewResult where
  hook : Hook
  infoLog : Option String

/-- `New`: apply options to the defaults, warn (info-level) when `exec` is
nil, start the queue, return the hook. -/
def New (fs : List OptFn) : NewResult :=
  let opts := applyOpts fs
  { hook := { opts := opts }
    infoLog :=
      match opts.exec with
      | none => some "Unknown Execer interface implementation"
      | some _ => none }

/-- `Hook.Levels`: returns the configured accepted severities. -/
def Hook.Levels (h : Hook) : List Level :=
  h.opts.levels

/-! ## Heap of field maps

A live `logrus.Entry` holds a pointer to its `Data` map.  To express the
aliasing facts (`Fire` mutates the producer's map in place; `copyEntry`
allocates a fresh, independent map) the maps are stored in an explicit
heap addressed by `Ref`. -/

abbrev Ref := Nat

abbrev Heap := List (Ref × Fields)

/-- Largest allocated reference (0 on an empty heap). -/
def maxKey : Heap → Nat
  | [] => 0
  | p :: t => max p.1 (maxKey t)

/-- A reference unused by any cell of the heap. -/
def freshRef (h : Heap) : Ref :=
  maxKey h + 1

/-- Read the field map at a reference (unallocated reads give the empty map;
never exercised by the code below on allocated entries). -/
def hget : Heap → Ref → Fields
  | [], _ => []
  | (r', f) :: t, r => if r' = r then f else hget t r

/-- Overwrite the field map at a reference in place. -/
def hset : Heap → Ref → Fields → Heap
  | [], r, f => [(r, f)]
  | (r', f') :: t, r, f =>
    if r' = r then (r, f) :: t else (r', f') :: hset t r f

/-- A live `logrus.Entry` as seen by the producer: scalar fields plus the
reference of its `Data` map.  `hasCaller` is `entry.HasCaller()`. -/
structure HEntry where
  dataRef : Ref
  time : Nat
  level : Level
  msg : String
  hasCaller : Bool

/-- `Hook.copyEntry`: `logrus.NewEntry(e.Logger)` with a freshly made `Data`
map, then `Time`, `Level`, `Message` copied and every key/value pair of
`e.Data` copied into the new map (a shallow copy: the pair list is copied,
the values are not).  The fresh entry's `Caller` is nil, so it has no
caller metadata. -/
def Hook.copyEntry (h : Hook) (heap : Heap) (e : HEntry) : Heap × HEntry :=
  let r := freshRef heap
  ((r, hget heap e.dataRef) :: heap,
   { dataRef := r
     time := e.time
     level := e.level
     msg := e.msg
     hasCaller := false })

/-! ## Call-site resolution -/

/-- One resolved stack frame: what `runtime.FuncForPC(pc-1).Name()` and
`.FileLine(pc-1)` (resp. `runtime.Caller`) yield for it. -/
structure Frame where
  funcName : String
  file : String
  line : Nat

/-- Is `needle` a leading segment of `hay`? (helper for `hasSub`). -/
def hasPre : List Char → List Char → Bool
  | [], _ => true
  | _ :: _, [] => false
  | a :: as, b :: bs => a = b && hasPre as bs

/-- `strings.Contains`: does `needle` occur contiguously in the second list? -/
def hasSub (needle : List Char) : List Char → Bool
  | [] => needle.isEmpty
  | c :: rest => hasPre needle (c :: rest) || hasSub needle rest

/-- The module path of the logging library, hard-coded in `Fire`. -/
def logrusPath : List Char :=
  ("github.com/sirupsen/logrus").toList

/-- The frame test `strings.Contains(fu.Name(), "github.com/sirupsen/logrus")`. -/
def isLogrusFrame (fr : Frame) : Bool :=
  hasSub logrusPath fr.funcName.toList

/-- Go `path.Base` step 1: strip trailing slashes. -/
def stripTrailingSlashes (l : List Char) : List Char :=
  (l.reverse.dropWhile (· = '/')).reverse

/-- Go `path.Base` step 2: keep what follows the last slash. -/
def afterLastSlash (l : List Char) : List Char :=
  (l.reverse.takeWhile (fun c => ¬ (c = '/'))).reverse

/-- Go `path.Base`: the last element of a slash-separated path. -/
def pathBase (s : String) : String :=
  if s.isEmpty then "."
  else
    let l := afterLastSlash (stripTrailingSlashes s.toList)
    if l.isEmpty then "/" else String.mk l

/-- The two field writes performed for a chosen frame `fr`:
`entry.Data["file"] = fmt.Sprintf("%s:%d", file, line)` then
`entry.Data["func"] = path.Base(name)`. -/
def setFileFunc (d : Fields) (fr : Frame) : Fields :=
  fset (fset d "file" (GoValue.str (fr.file ++ ":" ++ toString fr.line)))
    "func" (GoValue.str (pathBase fr.funcName))

/-- The resolver loop of `Fire`: `window` is what `runtime.Callers(6, pc)`
filled into the 3-slot `pc` array; `fallback` is the (deterministic)
result of `runtime.Caller(8)`, `none` when that lookup reports `!ok`.
The first non-logrus frame is taken and the loop breaks; every logrus
frame encountered first instead writes the fallback's fields (when
available) and continues. -/
def callerLoop : List Frame → Option Frame → Fields → Fields
  | [], _, d => d
  | fu :: rest, fb, d =>
    if ! isLogrusFrame fu then
      setFileFunc d fu
    else
      callerLoop rest fb
        (match fb with
         | some f => setFileFunc d f
         | none => d)

/-- What `Hook.Fire` produces: the heap after its in-place writes, the
snapshot entry it enqueued, and its returned `error`. -/
structure FireRes where
  heap : Heap
  queued : HEntry
  ret : Option String

/-- `Hook.Fire`: when the entry has caller metadata, run the resolver loop
over the producer's own `Data` map (in-place mutation, modelled as writing
the loop's final map back through the entry's reference); then snapshot
the entry with `copyEntry` and enqueue the copy; finally `return nil`. -/
def Hook.Fire (h : Hook) (heap : Heap) (e : HEntry) (window : List Frame)
    (fallback : Option Frame) : FireRes :=
  let heap1 :=
    if e.hasCaller then
      hset heap e.dataRef (callerLoop window fallback (hget heap e.dataRef))
    else heap
  let hc := h.copyEntry heap1 e
  { heap := hc.1, queued := hc.2, ret := none }

/-! ## Dispatch pipeline (`Hook.exec`, run on a worker) -/

/-- Observable outcome of one pipeline run. -/
inductive ExecRes where
  | panicked
  | persisted
  | diagWrite : String → ExecRes
  | errDropped : String → ExecRes
deriving DecidableEq, Repr

/-- The entry finally handed to the backend, with the run's outcome. -/
structure ExecOut where
  entry : PEntry
  res : ExecRes
deriving DecidableEq, Repr

/-- The merge loop of `Hook.exec`:
`for k, v := range extra { if _, ok := entry.Data[k]; !ok { entry.Data[k] = v } }`. -/
def mergeExtra (ex : Fields) (d : Fields) : Fields :=
  ex.foldl (fun d p => if (fget d p.1).isSome then d else fset d p.1 p.2) d

/-- The first two steps of `Hook.exec`: merge each configured extra pair
into `entry.Data` only when its key is absent, then apply the filter (when
configured), replacing the entry with the filter's return value. -/
def pipelineEntry (o : Opts) (entry : PEntry) : PEntry :=
  let e1 :=
    match o.extra with
    | some ex => { entry with data := mergeExtra ex entry.data }
    | none => entry
  match o.filter with
  | some fl => fl e1
  | none => e1

/-- `Hook.exec`: after the merge and filter steps, `h.opts.exec.Exec(entry)`
is called.  When `opts.exec` is nil this is a method call on a nil Go
interface value, which panics at runtime (`.panicked`).  On an error the
worker writes one formatted line to `opts.out` when that sink is non-nil;
nothing is retried and nothing is propagated. -/
def Hook.exec (h : Hook) (entry : PEntry) : ExecOut :=
  let entry := pipelineEntry h.opts entry
  match h.opts.exec with
  | none => { entry := entry, res := ExecRes.panicked }
  | some b =>
    match b entry with
    | BackendRes.ok => { entry := entry, res := ExecRes.persisted }
    | BackendRes.err m =>
      match h.opts.out with
      | some _ =>
        { entry := entry
          res := ExecRes.diagWrite ("[Mongo-Hook] Execution error: " ++ m) }
      | none => { entry := entry, res := ExecRes.errDropped m }

/-- The worker pool processing a batch of queued snapshots: each job runs
`Hook.exec` on its payload exactly once. -/
def processAll (h : Hook) (pending : List PEntry) : List ExecOut :=
  pending.map h.exec

/-- The value snapshot a queued job carries, read off the heap. -/
def snapshotOf (heap : Heap) (e : HEntry) : PEntry :=
  { time := e.time, level := e.level, msg := e.msg, data := hget heap e.dataRef }

/-- A producer session: fire each input (entry plus its stack window and
fallback frame) in order, threading the heap, and collect the snapshots
pushed onto the queue. -/
def fireSession (h : Hook) : Heap → List (HEntry × List Frame × Option Frame) →
    Heap × List PEntry
  | heap, [] => (heap, [])
  | heap, (e, w, fb) :: rest =>
    let r := h.Fire heap e w fb
    let tail := fireSession h r.heap rest
    (tail.1, snapshotOf r.heap r.queued :: tail.2)

/-- Modelled from the spec: the job queue implementation
(`github.com/pm-esd/queue`: `NewQueue`, `Run`, `Push`, `Terminate`) is not
under `src/`.  Per the spec, `Push` enqueues jobs FIFO and
`Terminate` (called by `Hook.Flush`) blocks until every buffered and
in-flight job has completed.  Sequential abstraction: firing a batch and
then flushing runs the pipeline once on every snapshot pushed during the
session, in order. -/
def fireFlush (h : Hook) (heap : Heap)
    (inputs : List (HEntry × List Frame × Option Frame)) : List ExecOut :=
  processAll h (fireSession h heap inputs).2

/-! ## Concrete inputs used by the witness theorems -/

def wP : PEntry :=
  { time := 1, level := Level.errorLevel, msg := "boom", data := [] }

def wHeap : Heap := [(0, [("a", GoValue.int 1)])]

def wEntry : HEntry :=
  { dataRef := 0, time := 5, level := Level.infoLevel, msg := "m",
    hasCaller := false }

def wEntryC : HEntry :=
  { dataRef := 0, time := 5, level := Level.infoLevel, msg := "m",
    hasCaller := true }

def wLogrusFrame : Frame :=
  { funcName := "github.com/sirupsen/logrus.(*Entry).log"
    file := "/go/pkg/github.com/sirupsen/logrus/entry.go"
    line := 255 }

def wAppFrame : Frame :=
  { funcName := "github.com/acme/app/server.handle"
    file := "/go/src/app/server.go"
    line := 42 }

def wFbFrame : Frame :=
  { funcName := "main.main", file := "/go/src/app/main.go", line := 10 }

def wOkB : Backend := fun _ => BackendRes.ok

def wFailB : Backend := fun _ => BackendRes.err "disk full"

def wHookOk : Hook := (New [SetExec wOkB]).hook

def wHookFail : Hook := (New [SetExec wFailB]).hook

def wOptsId : Opts := { defaultOptions with filter := some (fun x => x) }

/-! ## Lemmas about field maps -/

theorem fget_fset_self (m : Fields) (k : String) (v : GoValue) :
    fget (fset m k v) k = some v := by
  induction m with
  | nil => simp [fget, fset]
  | cons p t ih =>
    by_cases h : p.1 = k
    · simp [fset, h, fget]
    · simp [fset, h, fget, ih]

theorem fget_fset_ne (m : Fields) {k k' : String} (v : GoValue) (h : k' ≠ k) :
    fget (fset m k' v) k = fget m k := by
  induction m with
  | nil => simp [fget, fset, h]
  | cons p t ih =>
    by_cases hp : p.1 = k'
    · simp [fset, hp, fget, h]
    · simp only [fset, hp, if_neg hp]
      by_cases hk : p.1 = k
      · simp [fget, hk]
      · simp [fget, hk, ih]

theorem fset_fset_self (m : Fields) (k : String) (v w : GoValue) :
    fset (fset m k v) k w = fset m k w := by
  induction m with
  | nil => simp [fset]
  | cons p t ih =>
    by_cases h : p.1 = k
    · simp [fset, h]
    · simp [fset, h, ih]

theorem fset_through (m : Fields) (k g : String) (a b x : GoValue) (h : k ≠ g) :
    fset (fset (fset m k a) g b) k x = fset (fset m k x) g b := by
  induction m with
  | nil => simp [fset, h, Ne.symm h]
  | cons p t ih =>
    by_cases hk : p.1 = k
    · simp [fset, hk, Ne.symm h, h]
    · by_cases hg : p.1 = g
      · simp [fset, hk, hg, Ne.symm h, fset_fset_self]
      · simp [fset, hk, hg, ih]

theorem setFileFunc_absorb (d : Fields) (f1 f2 : Frame) :
    setFileFunc (setFileFunc d f1) f2 = setFileFunc d f2 := by
  unfold setFileFunc
  rw [fset_through d "file" "func"
    (GoValue.str (f1.file ++ ":" ++ toString f1.line))
    (GoValue.str (pathBase f1.funcName))
    (GoValue.str (f2.file ++ ":" ++ toString f2.line)) (by decide),
    fset_fset_self]

/-- The merge step keeps every binding already present in the entry. -/
theorem fget_merge_of_isSome (ex : Fields) :
    ∀ (m : Fields) (k : String), (fget m k).isSome = true →
      fget (mergeExtra ex m) k = fget m k := by
  unfold mergeExtra
  induction ex with
  | nil => intro m k _; rfl
  | cons p t ih =>
    intro m k hk
    simp only [List.foldl_cons]
    by_cases hp : (fget m p.1).isSome = true
    · rw [if_pos hp]; exact ih m k hk
    · rw [if_neg hp]
      by_cases hkp : p.1 = k
      · subst hkp; rw [hk] at hp; exact absurd rfl hp
      · rw [ih (fset m p.1 p.2) k
          (by rw [fget_fset_ne m p.2 hkp]; exact hk)]
        exact fget_fset_ne m p.2 hkp

/-! ## Lemmas about the heap -/

theorem mem_keys_le_maxKey {hp : Heap} {r : Ref}
    (h : r ∈ hp.map Prod.fst) : r ≤ maxKey hp := by
  induction hp with
  | nil => simp at h
  | cons p t ih =>
    simp only [List.map_cons, List.mem_cons] at h
    rcases h with h | h
    · subst h; exact Nat.le_max_left _ _
    · exact Nat.le_trans (ih h) (Nat.le_max_right _ _)

theorem freshRef_ne_of_mem {hp : Heap} {r : Ref}
    (h : r ∈ hp.map Prod.fst) : freshRef hp ≠ r := by
  have h2 : r ≤ maxKey hp := mem_keys_le_maxKey h
  show maxKey hp + 1 ≠ r
  exact Nat.ne_of_gt (Nat.lt_succ_of_le h2)

theorem hget_cons_ne (hp : Heap) {r r' : Ref} (f : Fields) (h : r' ≠ r) :
    hget ((r', f) :: hp) r = hget hp r := by
  simp [hget, h]

theorem hget_cons_self (hp : Heap) (r : Ref) (f : Fields) :
    hget ((r, f) :: hp) r = f := by
  simp [hget]

theorem hget_hset_self (hp : Heap) (r : Ref) (f : Fields) :
    hget (hset hp r f) r = f := by
  induction hp with
  | nil => simp [hset, hget]
  | cons p t ih =>
    by_cases h : p.1 = r
    · simp [hset, h, hget]
    · simp [hset, h, hget, ih]

theorem hget_hset_ne (hp : Heap) {r r' : Ref} (f : Fields) (h : r' ≠ r) :
    hget (hset hp r' f) r = hget hp r := by
  induction hp with
  | nil => simp [hset, hget, h]
  | cons p t ih =>
    rcases p with ⟨pr, pf⟩
    by_cases hp1 : pr = r'
    · subst hp1
      simp [hset, hget, h]
    · simp only [hset, if_neg hp1]
      by_cases hr : pr = r
      · simp [hget, hr]
      · simp [hget, hr, ih]

theorem mem_keys_hset {hp : Heap} {r : Ref} (r' : Ref) (f : Fields)
    (h : r ∈ hp.map Prod.fst) : r ∈ (hset hp r' f).map Prod.fst := by
  induction hp with
  | nil => simp at h
  | cons p t ih =>
    rcases p with ⟨pr, pf⟩
    simp only [List.map_cons, List.mem_cons] at h
    by_cases hp1 : pr = r'
    · subst hp1
      have hs : hset ((pr, pf) :: t) pr f = (pr, f) :: t := by simp [hset]
      rw [hs]
      simp only [List.map_cons, List.mem_cons]
      exact h
    · simp only [hset, if_neg hp1, List.map_cons, List.mem_cons]
      rcases h with h | h
      · exact Or.inl h
      · exact Or.inr (ih h)

/-! ## The resolver loop's final field map -/

/-- Closed form of `callerLoop`: the first non-logrus frame of the window
wins; otherwise, on a non-empty window, the fallback frame (when the
fixed-depth lookup succeeded); otherwise the map is untouched. -/
theorem callerLoop_eq (fb : Option Frame) :
    ∀ (window : List Frame) (d : Fields),
      callerLoop window fb d =
        match window.find? (fun f => ! isLogrusFrame f) with
        | some f => setFileFunc d f
        | none =>
          if window.isEmpty then d
          else
            match fb with
            | some f => setFileFunc d f
            | none => d := by
  intro window
  induction window with
  | nil => intro d; simp [callerLoop]
  | cons fu rest ih =>
    intro d
    by_cases hfu : isLogrusFrame fu
    · have hfind : (fu :: rest).find? (fun f => ! isLogrusFrame f)
          = rest.find? (fun f => ! isLogrusFrame f) := by
        simp [List.find?, hfu]
      simp only [callerLoop, hfu, Bool.not_true, Bool.false_eq_true,
        if_false, hfind]
      cases fb with
      | none =>
        rw [ih d]
        cases hrest : rest.find? (fun f => ! isLogrusFrame f) with
        | some f => simp [hrest]
        | none => simp [hrest]
      | some f =>
        rw [ih (setFileFunc d f)]
        cases hrest : rest.find? (fun f => ! isLogrusFrame f) with
        | some f' => simp [hrest, setFileFunc_absorb]
        | none => simp [hrest, setFileFunc_absorb]
    · have hfind : (fu :: rest).find? (fun f => ! isLogrusFrame f)
          = some fu := by
        simp [List.find?, hfu]
      simp [callerLoop, hfu, hfind]

/-! ## Lemmas about the worker pipeline -/

theorem exec_of_err (hk : Hook) (b : Backend) (s : Sink) (e : PEntry)
    (m : String) (hb : hk.opts.exec = some b) (ho : hk.opts.out = some s)
    (he : b (pipelineEntry hk.opts e) = BackendRes.err m) :
    hk.exec e = { entry := pipelineEntry hk.opts e
                  res := ExecRes.diagWrite ("[Mongo-Hook] Execution error: " ++ m) } := by
  unfold Hook.exec
  rw [hb]
  simp only []
  rw [he, ho]

theorem exec_of_ok (hk : Hook) (b : Backend) (e : PEntry)
    (hb : hk.opts.exec = some b)
    (hok : b (pipelineEntry hk.opts e) = BackendRes.ok) :
    hk.exec e = { entry := pipelineEntry hk.opts e, res := ExecRes.persisted } := by
  unfold Hook.exec
  rw [hb]
  simp only []
  rw [hok]

theorem fireSession_snd_length (hk : Hook) :
    ∀ (inputs : List (HEntry × List Frame × Option Frame)) (heap : Heap),
      (fireSession hk heap inputs).2.length = inputs.length := by
  intro inputs
  induction inputs with
  | nil => intro heap; rfl
  | cons p t ih =>
    intro heap
    rcases p with ⟨e, w, fb⟩
    simp [fireSession, ih]

/-! ## Claim theorems -/

/-- C1: constructing a hook with no execution backend succeeds with only an
informational log (never fatal), but — against the claim — firing an entry
on such a hook does NOT dispatch safely: the worker pipeline calls `Exec`
on the nil `ExecCloser` interface, which panics at runtime.  This theorem
evaluates the code at the failing input (the default hook, any entry): the
construction half of the claim holds, while the dispatch run panics
instead of completing, and indeed persists nothing. -/
theorem C1_nil_backend_panics :
    (New []).infoLog = some "Unknown Execer interface implementation" ∧
    ((New []).hook.exec wP).res = ExecRes.panicked := by
  exact ⟨rfl, rfl⟩

/-- C2: for every hook configuration, heap, entry, stack window and
fallback frame, `Fire` returns `nil`: no failure is ever propagated back
to the log call site. -/
theorem C2_fire_always_returns_nil (hk : Hook) (heap : Heap) (e : HEntry)
    (w : List Frame) (fb : Option Frame) :
    (hk.Fire heap e w fb).ret = none := rfl

/-- C3: in the merge step of the dispatch pipeline, a key already present
in the entry's field map keeps the entry's own value, whatever the
configured extras map holds for it. -/
theorem C3_entry_fields_win_over_extras (ex d : Fields) (k : String)
    (hk : (fget d k).isSome = true) :
    fget (mergeExtra ex d) k = fget d k :=
  fget_merge_of_isSome ex d k hk

theorem C3_witness :
    (fget [("k", GoValue.int 2)] "k").isSome = true ∧
    fget (mergeExtra [("k", GoValue.int 9), ("x", GoValue.int 7)]
        [("k", GoValue.int 2)]) "k"
      = fget [("k", GoValue.int 2)] "k" :=
  ⟨by decide,
   C3_entry_fields_win_over_extras
     [("k", GoValue.int 9), ("x", GoValue.int 7)] [("k", GoValue.int 2)]
     "k" (by decide)⟩

/-- C8: a hook constructed with no options has queue capacity 512, two
workers, exactly the five standard levels ordered most to least severe,
no extras, no filter, no backend, `os.Stderr` as diagnostic sink, and
`Levels()` returns exactly the configured severities. -/
theorem C8_default_configuration :
    (New []).hook.opts.maxQueues = 512 ∧
    (New []).hook.opts.maxWorkers = 2 ∧
    (New []).hook.opts.levels =
      [Level.fatalLevel, Level.errorLevel, Level.warnLevel,
       Level.infoLevel, Level.debugLevel] ∧
    List.Chain' (fun a b => levelValue a < levelValue b)
      (New []).hook.opts.levels ∧
    (New []).hook.opts.extra = none ∧
    (New []).hook.opts.filter = none ∧
    (New []).hook.opts.exec = none ∧
    (New []).hook.opts.out = some Sink.stderr ∧
    (New []).hook.Levels = (New []).hook.opts.levels :=
  ⟨rfl, rfl, rfl, by
    have h : (New []).hook.opts.levels =
        [Level.fatalLevel, Level.errorLevel, Level.warnLevel,
         Level.infoLevel, Level.debugLevel] := rfl
    rw [h]
    simp only [List.chain'_cons, List.chain'_singleton, and_true]
    refine ⟨?_, ?_, ?_, ?_⟩ <;> decide,
   rfl, rfl, rfl, rfl, rfl⟩

/-- C5: `copyEntry` yields an entry whose field map lives at a fresh
reference distinct from the original's, holds exactly the original's
key/value pairs, and carries the original's timestamp, level and message;
the original's map is untouched, and any later in-place mutation of the
original's map leaves the copy's map unchanged. -/
theorem C5_copyEntry_independent_snapshot (hk : Hook) (heap : Heap)
    (e : HEntry) (hm : e.dataRef ∈ heap.map Prod.fst) :
    (hk.copyEntry heap e).2.dataRef ≠ e.dataRef ∧
    hget (hk.copyEntry heap e).1 (hk.copyEntry heap e).2.dataRef
      = hget heap e.dataRef ∧
    (hk.copyEntry heap e).2.time = e.time ∧
    (hk.copyEntry heap e).2.level = e.level ∧
    (hk.copyEntry heap e).2.msg = e.msg ∧
    hget (hk.copyEntry heap e).1 e.dataRef = hget heap e.dataRef ∧
    (∀ f, hget (hset (hk.copyEntry heap e).1 e.dataRef f)
        (hk.copyEntry heap e).2.dataRef = hget heap e.dataRef) := by
  have hne : freshRef heap ≠ e.dataRef := freshRef_ne_of_mem hm
  refine ⟨hne, ?_, rfl, rfl, rfl, ?_, ?_⟩
  · exact hget_cons_self heap (freshRef heap) _
  · exact hget_cons_ne heap _ hne
  · intro f
    show hget (hset ((freshRef heap, hget heap e.dataRef) :: heap)
      e.dataRef f) (freshRef heap) = hget heap e.dataRef
    rw [hget_hset_ne _ f (Ne.symm hne)]
    exact hget_cons_self heap (freshRef heap) _

theorem C5_witness :
    wEntry.dataRef ∈ wHeap.map Prod.fst ∧
    ((wHookOk.copyEntry wHeap wEntry).2.dataRef ≠ wEntry.dataRef ∧
     hget (wHookOk.copyEntry wHeap wEntry).1
        (wHookOk.copyEntry wHeap wEntry).2.dataRef
       = hget wHeap wEntry.dataRef ∧
     (wHookOk.copyEntry wHeap wEntry).2.time = wEntry.time ∧
     (wHookOk.copyEntry wHeap wEntry).2.level = wEntry.level ∧
     (wHookOk.copyEntry wHeap wEntry).2.msg = wEntry.msg ∧
     hget (wHookOk.copyEntry wHeap wEntry).1 wEntry.dataRef
       = hget wHeap wEntry.dataRef ∧
     (∀ f, hget (hset (wHookOk.copyEntry wHeap wEntry).1 wEntry.dataRef f)
        (wHookOk.copyEntry wHeap wEntry).2.dataRef
       = hget wHeap wEntry.dataRef)) :=
  ⟨by decide, C5_copyEntry_independent_snapshot wHookOk wHeap wEntry (by decide)⟩

/-- C6: on an entry with caller metadata the resolver's final field map is
given by the first frame of the (at most 3 frame) window that is not
inside `github.com/sirupsen/logrus`; when no window frame qualifies it is
the fixed-depth fallback frame (when that lookup succeeded), and when the
window is empty — stack introspection yielded nothing — the map is left
unchanged, never a failure.  The frame chosen writes `file` as
`"path:line"` and `func` as the base identifier of the function name. -/
theorem C6_callsite_resolution (window : List Frame) (fb : Option Frame)
    (d : Fields) (fr : Frame) (hw : window.length ≤ 3) :
    callerLoop window fb d =
      (match window.find? (fun f => ! isLogrusFrame f) with
       | some f => setFileFunc d f
       | none =>
         if window.isEmpty then d
         else
           match fb with
           | some f => setFileFunc d f
           | none => d) ∧
    fget (setFileFunc d fr) "file"
      = some (GoValue.str (fr.file ++ ":" ++ toString fr.line)) ∧
    fget (setFileFunc d fr) "func"
      = some (GoValue.str (pathBase fr.funcName)) := by
  refine ⟨callerLoop_eq fb window d, ?_, ?_⟩
  · unfold setFileFunc
    rw [fget_fset_ne _ _ (by decide), fget_fset_self]
  · unfold setFileFunc
    rw [fget_fset_self]

theorem C6_witness :
    ([wLogrusFrame, wAppFrame] : List Frame).length ≤ 3 ∧
    (callerLoop [wLogrusFrame, wAppFrame] (some wFbFrame) []
        = setFileFunc [] wAppFrame ∧
     fget (setFileFunc [] wAppFrame) "file"
       = some (GoValue.str (wAppFrame.file ++ ":" ++ toString wAppFrame.line)) ∧
     fget (setFileFunc [] wAppFrame) "func"
       = some (GoValue.str (pathBase wAppFrame.funcName))) :=
  ⟨by decide,
   C6_callsite_resolution [wLogrusFrame, wAppFrame] (some wFbFrame) []
     wAppFrame (by decide)⟩

/-- C7: with the identity filter configured, the pipeline's entry
transformation coincides with the pipeline run with no filter at all, and
both equal the input entry with the configured extras merged in. -/
theorem C7_identity_filter_is_noop (o : Opts) (e : PEntry)
    (hf : o.filter = some (fun x => x)) :
    pipelineEntry o e = pipelineEntry { o with filter := none } e ∧
    pipelineEntry o e =
      (match o.extra with
       | some ex => { e with data := mergeExtra ex e.data }
       | none => e) := by
  unfold pipelineEntry
  rw [hf]
  exact ⟨rfl, rfl⟩

theorem C7_witness :
    wOptsId.filter = some (fun x => x) ∧
    (pipelineEntry wOptsId wP
        = pipelineEntry { wOptsId with filter := none } wP ∧
     pipelineEntry wOptsId wP =
       (match wOptsId.extra with
        | some ex => { wP with data := mergeExtra ex wP.data }
        | none => wP)) :=
  ⟨rfl, C7_identity_filter_is_noop wOptsId wP rfl⟩

/-- C10: when the fired entry carries caller metadata, `Fire` writes the
resolved fields into the producer's own field map (through the entry's
reference, hence visible to every holder of that entry after `Fire`
returns) before the snapshot is taken, so the snapshot's fresh map holds
the same resolved fields; without caller metadata the producer's map is
left unchanged. -/
theorem C10_fire_mutates_producer_entry (hk : Hook) (heap : Heap)
    (e : HEntry) (w : List Frame) (fb : Option Frame)
    (hm : e.dataRef ∈ heap.map Prod.fst) :
    (e.hasCaller = true →
      hget (hk.Fire heap e w fb).heap e.dataRef
        = callerLoop w fb (hget heap e.dataRef) ∧
      hget (hk.Fire heap e w fb).heap (hk.Fire heap e w fb).queued.dataRef
        = callerLoop w fb (hget heap e.dataRef) ∧
      (hk.Fire heap e w fb).queued.dataRef ≠ e.dataRef) ∧
    (e.hasCaller = false →
      hget (hk.Fire heap e w fb).heap e.dataRef = hget heap e.dataRef) := by
  constructor
  · intro hc
    have hm1 : e.dataRef ∈ (hset heap e.dataRef
        (callerLoop w fb (hget heap e.dataRef))).map Prod.fst :=
      mem_keys_hset e.dataRef _ hm
    have hne := freshRef_ne_of_mem hm1
    simp only [Hook.Fire, Hook.copyEntry, hc, if_true]
    refine ⟨?_, ?_, hne⟩
    · rw [hget_cons_ne _ _ hne, hget_hset_self]
    · rw [hget_cons_self, hget_hset_self]
  · intro hc
    have hne := freshRef_ne_of_mem hm
    simp only [Hook.Fire, Hook.copyEntry, hc, Bool.false_eq_true, if_false]
    exact hget_cons_ne heap _ hne

theorem C10_witness :
    wEntryC.dataRef ∈ wHeap.map Prod.fst ∧
    ((wEntryC.hasCaller = true →
      hget (wHookOk.Fire wHeap wEntryC [wAppFrame] none).heap wEntryC.dataRef
        = callerLoop [wAppFrame] none (hget wHeap wEntryC.dataRef) ∧
      hget (wHookOk.Fire wHeap wEntryC [wAppFrame] none).heap
          (wHookOk.Fire wHeap wEntryC [wAppFrame] none).queued.dataRef
        = callerLoop [wAppFrame] none (hget wHeap wEntryC.dataRef) ∧
      (wHookOk.Fire wHeap wEntryC [wAppFrame] none).queued.dataRef
        ≠ wEntryC.dataRef) ∧
     (wEntryC.hasCaller = false →
      hget (wHookOk.Fire wHeap wEntryC [wAppFrame] none).heap wEntryC.dataRef
        = hget wHeap wEntryC.dataRef)) :=
  ⟨by decide,
   C10_fire_mutates_producer_entry wHookOk wHeap wEntryC [wAppFrame] none
     (by decide)⟩

/-- C4: with a configured sink and a backend failing every entry with
"disk full", processing a batch of 5 queued entries produces exactly 5
pipeline runs, each writing exactly one diagnostic line (which contains
"disk full") to the sink — no retry, no crash — and persisting zero
entries. -/
theorem C4_backend_failure_diagnostics (hk : Hook) (b : Backend) (s : Sink)
    (es : List PEntry) (hb : hk.opts.exec = some b) (ho : hk.opts.out = some s)
    (hf : ∀ e, b e = BackendRes.err "disk full") (h5 : es.length = 5) :
    (processAll hk es).length = 5 ∧
    (∀ r ∈ processAll hk es,
      r.res = ExecRes.diagWrite ("[Mongo-Hook] Execution error: " ++ "disk full") ∧
      hasSub ("disk full").toList
        ("[Mongo-Hook] Execution error: " ++ "disk full").toList = true) ∧
    (processAll hk es).countP (fun r => r.res == ExecRes.persisted) = 0 := by
  have hr : ∀ r ∈ processAll hk es,
      r.res = ExecRes.diagWrite ("[Mongo-Hook] Execution error: " ++ "disk full") := by
    intro r hrm
    simp only [processAll] at hrm
    obtain ⟨e, _, rfl⟩ := List.mem_map.mp hrm
    rw [exec_of_err hk b s e "disk full" hb ho (hf _)]
  refine ⟨?_, ?_, ?_⟩
  · simp only [processAll]
    rw [List.length_map, h5]
  · intro r hrm
    exact ⟨hr r hrm, by decide⟩
  · rw [List.countP_eq_zero]
    intro r hrm
    rw [hr r hrm]
    decide

theorem C4_witness :
    wHookFail.opts.exec = some wFailB ∧
    wHookFail.opts.out = some Sink.stderr ∧
    (∀ e, wFailB e = BackendRes.err "disk full") ∧
    (List.replicate 5 wP).length = 5 ∧
    ((processAll wHookFail (List.replicate 5 wP)).length = 5 ∧
     (∀ r ∈ processAll wHookFail (List.replicate 5 wP),
       r.res = ExecRes.diagWrite ("[Mongo-Hook] Execution error: " ++ "disk full") ∧
       hasSub ("disk full").toList
         ("[Mongo-Hook] Execution error: " ++ "disk full").toList = true) ∧
     (processAll wHookFail (List.replicate 5 wP)).countP
       (fun r => r.res == ExecRes.persisted) = 0) :=
  ⟨rfl, rfl, fun _ => rfl, rfl,
   C4_backend_failure_diagnostics wHookFail wFailB Sink.stderr
     (List.replicate 5 wP) rfl rfl (fun _ => rfl) rfl⟩

/-- C9: firing any batch of entries and then flushing (queue drain modelled
from the spec, see `fireFlush`) runs the pipeline on exactly one snapshot
per submitted entry — none lost, none duplicated — and with a backend that
always succeeds every run persists its entry. -/
theorem C9_flush_processes_each_entry_once (hk : Hook) (b : Backend)
    (heap : Heap) (inputs : List (HEntry × List Frame × Option Frame))
    (hb : hk.opts.exec = some b) (hok : ∀ e, b e = BackendRes.ok) :
    (fireFlush hk heap inputs).length = inputs.length ∧
    (fireFlush hk heap inputs).map ExecOut.entry
      = ((fireSession hk heap inputs).2).map (pipelineEntry hk.opts) ∧
    (∀ r ∈ fireFlush hk heap inputs, r.res = ExecRes.persisted) := by
  refine ⟨?_, ?_, ?_⟩
  · simp only [fireFlush, processAll]
    rw [List.length_map, fireSession_snd_length]
  · simp only [fireFlush, processAll]
    rw [List.map_map]
    apply List.map_congr_left
    intro e _
    simp only [Function.comp_apply]
    rw [exec_of_ok hk b e hb (hok _)]
  · intro r hrm
    simp only [fireFlush, processAll] at hrm
    obtain ⟨e, _, rfl⟩ := List.mem_map.mp hrm
    rw [exec_of_ok hk b e hb (hok _)]

theorem C9_witness :
    wHookOk.opts.exec = some wOkB ∧
    (∀ e, wOkB e = BackendRes.ok) ∧
    ((fireFlush wHookOk wHeap [(wEntry, [], none)]).length = 1 ∧
     (fireFlush wHookOk wHeap [(wEntry, [], none)]).map ExecOut.entry
       = ((fireSession wHookOk wHeap [(wEntry, [], none)]).2).map
           (pipelineEntry wHookOk.opts) ∧
     (∀ r ∈ fireFlush wHookOk wHeap [(wEntry, [], none)],
        r.res = ExecRes.persisted)) :=
  ⟨rfl, fun _ => rfl,
   C9_flush_processes_each_entry_once wHookOk wOkB wHeap
     [(wEntry, [], none)] rfl (fun _ => rfl)⟩
